import Mathlib

/-
Verification of the RAG knowledge-base module (`rag_knowledgebase.py`).

Python strings are modelled as lists of characters (`Str`), so `len`
is `List.length` (both count code points) and slicing is `List.take`.
Scores computed in Python floating point are modelled as rationals;
the claims below depend only on exact branch structure (which divisor
is chosen, which score is zero), not on rounding of float arithmetic.
-/

namespace RagKB

/-- Python strings as lists of characters. -/
abbrev Str := List Char

/-- The newline character. -/
def nl : Char := Char.ofNat 10

/-- The paragraph separator, Python's `'\n\n'`. -/
def sep2 : Str := [nl, nl]

/-- Auxiliary scanner for Python's `content.split('\n\n')`: cut at every
non-overlapping occurrence of two consecutive newlines, left to right.
The accumulator holds the current piece reversed. -/
def splitBlank : Str → Str → List Str
  | [], acc => [acc.reverse]
  | [c], acc => [(c :: acc).reverse]
  | c1 :: c2 :: rest, acc =>
    if c1 = nl ∧ c2 = nl then acc.reverse :: splitBlank rest []
    else splitBlank (c2 :: rest) (c1 :: acc)

/-- Python's `content.split('\n\n')`. -/
def pySplitBlank (s : Str) : List Str := splitBlank s []

/-- Python's `str.isspace` for the ASCII whitespace stripped by `str.strip()`:
space, tab, newline, carriage return, vertical tab, form feed. -/
def isPySpace (c : Char) : Bool :=
  c = Char.ofNat 32 ∨ c = Char.ofNat 9 ∨ c = Char.ofNat 10 ∨
  c = Char.ofNat 13 ∨ c = Char.ofNat 11 ∨ c = Char.ofNat 12

/-- Python's `str.strip()`: drop whitespace from both ends. -/
def pyStrip (s : Str) : Str :=
  ((s.dropWhile isPySpace).reverse.dropWhile isPySpace).reverse

/-- Python's `sep.join(parts)`. -/
def joinSep (sep : Str) : List Str → Str
  | [] => []
  | [x] => x
  | x :: y :: rest => x ++ sep ++ joinSep sep (y :: rest)

/-- Line 129: `[p.strip() for p in content.split('\n\n') if p.strip()]`. -/
def paragraphs (content : Str) : List Str :=
  ((pySplitBlank content).map pyStrip).filter (fun p => p ≠ [])

/-- A chunk record as produced by `chunk_document` (lines 141-149).
The json `metadata` field (`char_count`, `created_at` wall-clock timestamp)
is not modelled: `char_count` is derivable from `content` and no claim
mentions either field. -/
structure ChunkRec where
  content : Str
  source_type : Str
  source_id : Str
  deriving DecidableEq, Repr

/-- The constant `"notion"` tag attached to every chunk. -/
def notionTag : Str := (("notion")).data

/-- Lines 135-167: the accumulation loop of `chunk_document`.
`buf` is `current_chunk`, `size` is `current_size` (the sum of the
paragraph lengths in the buffer, separators not counted). -/
def chunkLoop (S : ℕ) (sid : Str) : List Str → List Str → ℕ → List ChunkRec
  | [], buf, _ =>
    if buf = [] then [] else [⟨joinSep sep2 buf, notionTag, sid⟩]
  | p :: ps, buf, size =>
    if size + p.length > S ∧ buf ≠ [] then
      ⟨joinSep sep2 buf, notionTag, sid⟩ :: chunkLoop S sid ps [p] p.length
    else
      chunkLoop S sid ps (buf ++ [p]) (size + p.length)

/-- Lines 114-169: `chunk_document(content, source_id, chunk_size=800)`. -/
def chunk_document (content : Str) (source_id : Str) (chunk_size : ℕ := 800) :
    List ChunkRec :=
  chunkLoop chunk_size source_id (paragraphs content) [] 0

/-- A row of the `embeddings_meta` table (lines 62-71).  `metadata` (an opaque
json blob) and `created_at` (a wall-clock timestamp) are not modelled; no
claim mentions them. -/
structure MetaRow where
  id : ℕ
  source_type : Str
  source_id : Str
  content : Str
  deriving DecidableEq, Repr

/-- A row of the `embeddings_fts` FTS5 table (lines 81-89), keyed by rowid. -/
structure FtsRow where
  content : Str
  source_type : Str
  source_id : Str
  deriving DecidableEq, Repr

/-- The SQLite database of `init_database` (lines 44-107): the metadata table,
the `vec_embeddings` virtual table (rowid ↦ embedding, embedding type `E`
abstracting the 384-float vector), and the `embeddings_fts` table which the
triggers `embeddings_ai` / `embeddings_ad` keep in sync with the metadata
table.  `nextId` models the AUTOINCREMENT id counter (monotone, never
reused). -/
structure Store (E : Type) where
  nextId : ℕ
  meta : List MetaRow
  vec : List (ℕ × E)
  fts : List (ℕ × FtsRow)
  deriving DecidableEq

/-- One iteration of the loop in `store_chunks` (lines 251-269): insert the
metadata row (assigning `meta_id = cursor.lastrowid`), which fires the
`embeddings_ai` trigger inserting the FTS row with the same rowid, then
insert the embedding with the matching rowid. -/
def insertChunk {E : Type} (embed : Str → E) (st : Store E) (c : ChunkRec) :
    Store E :=
  { nextId := st.nextId + 1
    meta := st.meta ++ [⟨st.nextId, c.source_type, c.source_id, c.content⟩]
    fts := st.fts ++ [(st.nextId, ⟨c.content, c.source_type, c.source_id⟩)]
    vec := st.vec ++ [(st.nextId, embed c.content)] }

/-- Lines 232-271: `store_chunks(conn, chunks)`.  The embedding model call
`generate_embeddings_batch` is the external FastEmbed provider, abstracted as
the function `embed`; batching it is an efficiency matter with no effect on
the stored state.  The early return on an empty chunk list coincides with the
empty fold. -/
def store_chunks {E : Type} (embed : Str → E) (st : Store E)
    (chunks : List ChunkRec) : Store E :=
  chunks.foldl (insertChunk embed) st

/-- Lines 274-292: `clear_source(conn, source_id)`: collect the ids with that
`source_id`, return unchanged if none, otherwise delete those rowids from the
vector table and the metadata table (the `embeddings_ad` trigger removing the
same rowids from the FTS table). -/
def clear_source {E : Type} (st : Store E) (source_id : Str) : Store E :=
  let ids := ((st.meta.filter (fun r => r.source_id = source_id)).map MetaRow.id)
  if ids = [] then st
  else
    { st with
      vec := st.vec.filter (fun p => ¬ p.1 ∈ ids)
      meta := st.meta.filter (fun r => ¬ r.id ∈ ids)
      fts := st.fts.filter (fun p => ¬ p.1 ∈ ids) }

/-- The ids of the metadata table, in row order. -/
def metaIds {E : Type} (st : Store E) : List ℕ := st.meta.map MetaRow.id

/-- Well-formedness of a store, as established by `init_database` (the empty
store) and preserved by the two write operations: ids are below the
AUTOINCREMENT counter, no id repeats, and the vector and FTS tables hold
exactly the metadata ids (the trigger-maintained mirror). -/
def Consistent {E : Type} (st : Store E) : Prop :=
  (∀ r ∈ st.meta, r.id < st.nextId) ∧ (metaIds st).Nodup ∧
    st.vec.map Prod.fst = metaIds st ∧ st.fts.map Prod.fst = metaIds st

instance {E : Type} [DecidableEq E] (st : Store E) : Decidable (Consistent st) := by
  unfold Consistent metaIds; infer_instance

/-- Lines 526-578: `sync_notion_page` with the Notion fetch
(`get_page_content`, an external HTTP collaborator) abstracted as the
fetched `content`: clear the source's existing chunks, re-chunk with the
default 800-character target, store, and return the chunk count. -/
def sync_source {E : Type} (embed : Str → E) (content : Str) (st : Store E)
    (page_id : Str) : ℕ × Store E :=
  let st1 := clear_source st page_id
  let chunks := chunk_document content page_id
  (chunks.length, store_chunks embed st1 chunks)

/-- The contents stored for one source, in row order. -/
def sourceContents {E : Type} (st : Store E) (sid : Str) : List Str :=
  (st.meta.filter (fun r => r.source_id = sid)).map MetaRow.content

/-
Lexical search.  `bm25_search` (lines 299-322) delegates matching and
scoring to SQLite's FTS5 engine.  Its documented behaviour is modelled on
FTS5's bare-word query fragment only: a MATCH pattern whose characters are
all expression whitespace or ASCII alphanumerics and whose terms include no
upper-case operator keyword (AND, OR, NOT, NEAR) is a conjunction of its
terms, and such a pattern with no term at all (the empty or all-whitespace
string) is an FTS5 query syntax error, surfaced by the sqlite3 driver as an
exception.  Every other pattern — quoted phrases, parentheses, operator
keywords, punctuation such as apostrophes or hyphens (which FTS5 lexes as
query syntax and largely rejects as syntax errors) — engages the rest of
FTS5's query grammar, which is not modelled: its outcome is abstracted as
the unconstrained parameter `onComplex`, so no theorem below asserts
anything about it.  The numeric value of the BM25 weight for a matching row
is likewise irrelevant to every claim and is abstracted as the function
`score` of the rowid and content.
-/

/-- A result row of `bm25_search`: the joined metadata row plus the (negated)
BM25 score selected as `bm25_score`. -/
structure BRow where
  id : ℕ
  bm25_score : ℚ
  deriving DecidableEq, Repr

/-- Stable descending insertion by a rational key: the element being placed
goes in front of the first element whose key is not larger, which is exactly
the order a stable descending sort (SQL `ORDER BY ... DESC`, Python
`sorted(..., reverse=True)`) produces. -/
def insertDescBy {α : Type} (key : α → ℚ) (x : α) : List α → List α
  | [] => [x]
  | y :: ys => if key y ≤ key x then x :: y :: ys else y :: insertDescBy key x ys

/-- Stable descending sort by a rational key. -/
def sortDescBy {α : Type} (key : α → ℚ) : List α → List α
  | [] => []
  | x :: xs => insertDescBy key x (sortDescBy key xs)

/-- A result row of `semantic_search`: metadata row id plus cosine distance. -/
structure SRow where
  id : ℕ
  distance : ℚ
  deriving DecidableEq, Repr

/-- A merged row of `hybrid_search`: after the merge, `bm25_score` and
`semantic_score` hold the normalized scores (lines 398-412) and
`final_score` the weighted blend (lines 415-419). -/
structure HRow where
  id : ℕ
  bm25_score : ℚ
  semantic_score : ℚ
  final_score : ℚ
  deriving DecidableEq, Repr

/-- Lines 378-384: min-max normalization of the BM25 scores, divisor 1 when
max equals min; returns `(id, bm25_normalized)` pairs in result order. -/
def bm25Normalized (rs : List BRow) : List (ℕ × ℚ) :=
  match rs with
  | [] => []
  | r0 :: rest =>
    let maxB := rest.foldl (fun a r => max a r.bm25_score) r0.bm25_score
    let minB := rest.foldl (fun a r => min a r.bm25_score) r0.bm25_score
    let rng := if maxB ≠ minB then maxB - minB else 1
    (r0 :: rest).map (fun r => (r.id, (r.bm25_score - minB) / rng))

/-- Lines 386-393: min-max normalization of the distances, inverted so that
smaller distance scores closer to 1. -/
def semNormalized (rs : List SRow) : List (ℕ × ℚ) :=
  match rs with
  | [] => []
  | r0 :: rest =>
    let maxD := rest.foldl (fun a r => max a r.distance) r0.distance
    let minD := rest.foldl (fun a r => min a r.distance) r0.distance
    let rng := if maxD ≠ minD then maxD - minD else 1
    (r0 :: rest).map (fun r => (r.id, 1 - (r.distance - minD) / rng))

/-- Python dict assignment `merged[k] = v`: replace in place if the key is
present (keeping its insertion position), else append. -/
def dictSet (k : ℕ) (v : HRow) : List (ℕ × HRow) → List (ℕ × HRow)
  | [] => [(k, v)]
  | kv :: rest => if kv.1 = k then (k, v) :: rest else kv :: dictSet k v rest

/-- Lines 404-412: one step of the semantic merge pass: update the
`semantic_score` of an existing entry, or insert a new entry with
`bm25_score` 0. -/
def semStep (m : List (ℕ × HRow)) (p : ℕ × ℚ) : List (ℕ × HRow) :=
  if p.1 ∈ m.map Prod.fst then
    m.map (fun kv =>
      if kv.1 = p.1 then (kv.1, { kv.2 with semantic_score := p.2 }) else kv)
  else m ++ [(p.1, ⟨p.1, 0, p.2, 0⟩)]

/-- Lines 351-428: `hybrid_search`: over-fetch `top_k * 2` from each side,
normalize, merge by id into an insertion-ordered dict (bm25 pass then
semantic pass), compute the weighted `final_score`, sort descending by it
(stably, as Python's `sorted`), and truncate to `top_k`. -/
def hybrid_search (bfn : ℕ → List BRow) (sfn : ℕ → List SRow) (top_k : ℕ)
    (bm25_weight : ℚ := 3/10) (semantic_weight : ℚ := 7/10) : List HRow :=
  let bres := bfn (top_k * 2)
  let sres := sfn (top_k * 2)
  let bn := bm25Normalized bres
  let sn := semNormalized sres
  let m0 := bn.foldl (fun m p => dictSet p.1 ⟨p.1, p.2, 0, 0⟩ m)
    ([] : List (ℕ × HRow))
  let m1 := sn.foldl semStep m0
  let vals := m1.map (fun kv =>
    { kv.2 with final_score :=
        bm25_weight * kv.2.bm25_score + semantic_weight * kv.2.semantic_score })
  (sortDescBy HRow.final_score vals).take top_k

/-
Context formatting (lines 435-462).
-/

/-- The fields of a search result that `format_context_for_prompt` reads. -/
structure FRow where
  source_type : Str
  content : Str
  final_score : ℚ
  deriving DecidableEq, Repr

/-- Decimal digits of a natural number. -/
def natToStr (n : ℕ) : Str := Nat.toDigits 10 n

/-- Two-decimal rendering of a score, modelling the format specifier
`{:.2f}`.  Python rounds the underlying binary float half-to-even; this
model rounds the rational half-up, computing
`m = floor(q*100 + 1/2) = fdiv (200*num + den) (2*den)` directly on the
numerator and denominator.  The two renderings agree on every concrete
score used below, and the claims depend on the rendered text only through
its length. -/
def fmt2 (q : ℚ) : Str :=
  let m : ℤ := Int.fdiv (200 * q.num + (q.den : ℤ)) (2 * (q.den : ℤ))
  let a := m.natAbs
  let cents := if a % 100 < 10 then ('0') :: natToStr (a % 100) else natToStr (a % 100)
  (if m < 0 then [('-')] else []) ++ natToStr (a / 100) ++ [('.')] ++ cents

/-- Line 448: the entry header
`f"[{i}. {source_type}] (score: {final_score:.2f})"`. -/
def mkHeader (i : ℕ) (r : FRow) : Str :=
  [('[')] ++ natToStr i ++ ((". ")).data ++ r.source_type ++
    (("] (score: ")).data ++ fmt2 r.final_score ++ [(')')]

/-- Lines 447-460: the emission loop of `format_context_for_prompt`,
returning the list `context_parts`.  `i` is the 1-based index from
`enumerate(results, 1)` and `used` is `chars_used`; `break` returns the
parts collected so far. -/
def fcLoop (max_chars : ℕ) : List FRow → ℕ → ℕ → List Str
  | [], _, _ => []
  | r :: rest, i, used =>
    let h := mkHeader i r
    let avail : ℤ := (max_chars : ℤ) - (used : ℤ) - (h.length : ℤ) - 10
    if avail ≤ 100 then []
    else
      let c :=
        if (r.content.length : ℤ) > avail then
          r.content.take (avail - 3).toNat ++ (("...")).data
        else r.content
      let entry := h ++ [nl] ++ c ++ [nl]
      entry :: fcLoop max_chars rest (i + 1) (used + entry.length)

/-- The sentinel returned for an empty result list (line 442). -/
def noContextMsg : Str := (("No relevant context found.")).data

/-- Lines 435-462: `format_context_for_prompt(results, max_chars=4000)`. -/
def format_context (results : List FRow) (max_chars : ℕ := 4000) : Str :=
  if results = [] then noContextMsg
  else joinSep [nl] (fcLoop max_chars results 1 0)

/-- The chunking rule exactly as the specification words it, for comparison
with `chunk_document`: accumulate paragraphs into a buffer, flush when
adding the next paragraph would push the buffer's combined character length
past the target and the buffer is non-empty, start the new buffer with that
paragraph, and flush any remainder at the end. -/
def specChunkRule (S : ℕ) : List Str → List Str → List Str
  | buf, [] => if buf = [] then [] else [joinSep sep2 buf]
  | buf, p :: ps =>
    if buf ≠ [] ∧ (buf.map List.length).sum + p.length > S then
      joinSep sep2 buf :: specChunkRule S [p] ps
    else specChunkRule S (buf ++ [p]) ps

/-- Paragraph one of the spec's chunking scenario: 500 characters. -/
def para500 : Str := List.replicate 500 ('a')

/-- Paragraph two of the spec's chunking scenario: 400 characters. -/
def para400 : Str := List.replicate 400 ('b')

/-- The spec's chunking scenario document: the two paragraphs separated by a
blank line. -/
def scenarioDoc : Str := para500 ++ sep2 ++ para400

/-- A six-character document of two two-character paragraphs separated by a
blank line. -/
def tinyDoc : Str := [('a'), ('a'), nl, nl, ('b'), ('b')]

end RagKB

namespace RagKB

lemma joinSep_length (sep : Str) :
    ∀ g : List Str, g ≠ [] →
      (joinSep sep g).length = (g.map List.length).sum + sep.length * (g.length - 1)
  | [], h => absurd rfl h
  | [x], _ => by simp [joinSep]
  | x :: y :: rest, _ => by
    have ih := joinSep_length sep (y :: rest) (by simp)
    simp only [joinSep, List.length_append, ih, List.map_cons, List.sum_cons,
      List.length_cons, Nat.add_sub_cancel]
    ring

lemma chunkLoop_content_eq_spec (S : ℕ) (sid : Str) :
    ∀ ps buf size, size = (buf.map List.length).sum →
      (chunkLoop S sid ps buf size).map ChunkRec.content = specChunkRule S buf ps := by
  intro ps
  induction ps with
  | nil =>
    intro buf size _
    by_cases hb : buf = [] <;> simp [chunkLoop, specChunkRule, hb]
  | cons p ps ih =>
    intro buf size hsz
    by_cases hb : buf = []
    · subst hb
      simp only [chunkLoop, specChunkRule]
      rw [if_neg (by simp), if_neg (by simp)]
      exact ih [p] (size + p.length) (by simp [hsz])
    · by_cases hgt : size + p.length > S
      · simp only [chunkLoop, specChunkRule]
        rw [if_pos ⟨hgt, hb⟩, if_pos ⟨hb, by omega⟩]
        simp only [List.map_cons]
        rw [ih [p] p.length (by simp)]
      · simp only [chunkLoop, specChunkRule]
        rw [if_neg (by tauto), if_neg (by push_neg; intro; omega)]
        exact ih (buf ++ [p]) (size + p.length) (by simp [hsz])

set_option maxRecDepth 100000 in
/-- C2: `chunk_document` accumulates non-empty paragraphs and flushes as the
spec's rule describes (here stated as equality of the produced contents with
the rule transcribed from the spec's words); on the spec's 500/400-character
scenario with target 800 it yields exactly the two paragraphs as chunks; an
empty document yields zero chunks. -/
theorem chunker_accumulation_rule :
    (∀ sid S, chunk_document [] sid S = [])
    ∧ ((chunk_document scenarioDoc (("page")).data 800).map ChunkRec.content
        = [para500, para400]
      ∧ para500.length = 500 ∧ para400.length = 400)
    ∧ (∀ content sid S,
        (chunk_document content sid S).map ChunkRec.content
          = specChunkRule S [] (paragraphs content)) := by
  refine ⟨fun sid S => rfl, ⟨by decide, by decide, by decide⟩, fun content sid S => ?_⟩
  exact chunkLoop_content_eq_spec S sid (paragraphs content) [] 0 rfl

/-- C4 counterexample: for the document `"aa\n\nbb"` and target size 4, the
single produced chunk has length 6, which exceeds both its largest
constituent paragraph (length 2) and the target 4 (all paragraphs being
smaller than 4): the separators inserted between joined paragraphs are not
counted by the chunker's size check. -/
theorem chunk_size_bound_counterexample :
    ¬ (∀ c ∈ chunk_document tinyDoc (("s")).data 4,
        c.content.length ≤ ((pySplitBlank c.content).map List.length).foldr max 0
        ∨ ((∀ p ∈ paragraphs tinyDoc, p.length < 4) → c.content.length ≤ 4)) := by
  decide

lemma chunkLoop_structure (S : ℕ) (sid : Str) :
    ∀ ps buf size,
      (buf = [] ∨ buf.length = 1 ∨ (buf.map List.length).sum ≤ S) →
      size = (buf.map List.length).sum →
      ∀ c ∈ chunkLoop S sid ps buf size,
        ∃ g, g ≠ [] ∧ c.content = joinSep sep2 g ∧
          (g.length = 1 ∨ (g.map List.length).sum ≤ S) ∧
          ∀ p ∈ g, p ∈ buf ∨ p ∈ ps := by
  intro ps
  induction ps with
  | nil =>
    intro buf size hinv _ c hc
    by_cases hb : buf = []
    · simp [chunkLoop, hb] at hc
    · simp only [chunkLoop, if_neg hb, List.mem_singleton] at hc
      subst hc
      exact ⟨buf, hb, rfl, hinv.resolve_left hb, fun p hp => Or.inl hp⟩
  | cons p ps ih =>
    intro buf size hinv hsz c hc
    by_cases hcond : size + p.length > S ∧ buf ≠ []
    · simp only [chunkLoop, if_pos hcond, List.mem_cons] at hc
      rcases hc with rfl | hc
      · exact ⟨buf, hcond.2, rfl, hinv.resolve_left hcond.2, fun q hq => Or.inl hq⟩
      · obtain ⟨g, hg1, hg2, hg3, hg4⟩ :=
          ih [p] p.length (Or.inr (Or.inl rfl)) (by simp) c hc
        refine ⟨g, hg1, hg2, hg3, fun q hq => ?_⟩
        rcases hg4 q hq with hq' | hq'
        · exact Or.inr (by simp at hq'; simp [hq'])
        · exact Or.inr (List.mem_cons_of_mem p hq')
    · simp only [chunkLoop, if_neg hcond] at hc
      have hinv' : buf ++ [p] = [] ∨ (buf ++ [p]).length = 1
          ∨ ((buf ++ [p]).map List.length).sum ≤ S := by
        by_cases hb : buf = []
        · subst hb; simp
        · have : ¬ size + p.length > S := fun hgt => hcond ⟨hgt, hb⟩
          right; right; simp [← hsz]; omega
      obtain ⟨g, hg1, hg2, hg3, hg4⟩ :=
        ih (buf ++ [p]) (size + p.length) hinv' (by simp [hsz]) c hc
      refine ⟨g, hg1, hg2, hg3, fun q hq => ?_⟩
      rcases hg4 q hq with hq' | hq'
      · rcases List.mem_append.mp hq' with h' | h'
        · exact Or.inl h'
        · simp at h'; simp [h']
      · exact Or.inr (List.mem_cons_of_mem p hq')

/-- C4 amended: every chunk produced by `chunk_document` is a blank-line
join of a non-empty group of the document's paragraphs, and either the
group is a single (possibly oversized) paragraph taken whole, or the
chunk's content length is at most `S + 2*(k-1)` where `k` is the number of
paragraphs in the group — the `2*(k-1)` accounting for the joined blank-line
separators that the chunker's size check does not count. -/
theorem chunk_size_bound_amended (content sid : Str) (S : ℕ) :
    ∀ c ∈ chunk_document content sid S,
      ∃ g, g ≠ [] ∧ (∀ p ∈ g, p ∈ paragraphs content) ∧
        c.content = joinSep sep2 g ∧
        ((∃ p, g = [p] ∧ c.content = p) ∨
          c.content.length ≤ S + 2 * (g.length - 1)) := by
  intro c hc
  obtain ⟨g, hg1, hg2, hg3, hg4⟩ :=
    chunkLoop_structure S sid (paragraphs content) [] 0 (Or.inl rfl) rfl c hc
  refine ⟨g, hg1, fun p hp => (hg4 p hp).resolve_left (by simp), hg2, ?_⟩
  rcases hg3 with h1 | hs
  · obtain ⟨p, rfl⟩ := List.length_eq_one.mp h1
    exact Or.inl ⟨p, rfl, by simpa [joinSep] using hg2⟩
  · right
    rw [hg2, joinSep_length sep2 g hg1, show sep2.length = 2 from rfl]
    omega

/-- Witness for C4's amended theorem at the six-character document. -/
theorem chunk_size_bound_amended_witness :
    ((⟨tinyDoc, notionTag, (("s")).data⟩ : ChunkRec)
        ∈ chunk_document tinyDoc (("s")).data 4)
    ∧ ∃ g, g ≠ [] ∧ (∀ p ∈ g, p ∈ paragraphs tinyDoc) ∧
        tinyDoc = joinSep sep2 g ∧
        ((∃ p, g = [p] ∧ tinyDoc = p) ∨
          tinyDoc.length ≤ 4 + 2 * (g.length - 1)) :=
  ⟨by decide, chunk_size_bound_amended tinyDoc (("s")).data 4
    ⟨tinyDoc, notionTag, (("s")).data⟩ (by decide)⟩

/-- C9: on the empty result list `format_context` returns the literal
sentinel string `"No relevant context found."`, for every `max_chars`, and
in particular not the empty string. -/
theorem format_empty_sentinel (max_chars : ℕ) :
    format_context [] max_chars = noContextMsg
    ∧ format_context [] max_chars ≠ ([] : Str) := by
  refine ⟨rfl, ?_⟩
  rw [show format_context [] max_chars = noContextMsg from rfl]
  decide

/-- C10: if the budget check already fails at the first entry, the loop
breaks before emitting anything and `format_context` returns the empty
string, not the sentinel and not a partial entry. -/
theorem format_small_budget_empty (r : FRow) (rs : List FRow) (max_chars : ℕ)
    (h : (max_chars : ℤ) - ((mkHeader 1 r).length : ℤ) - 10 ≤ 100) :
    format_context (r :: rs) max_chars = ([] : Str) := by
  have hne : (r :: rs) ≠ ([] : List FRow) := by simp
  simp only [format_context, if_neg hne, fcLoop]
  rw [if_pos (by simpa using h)]
  rfl

/-- Witness for C10 at a concrete one-element result list and budget 0. -/
theorem format_small_budget_empty_witness :
    ((0 : ℤ) - ((mkHeader 1 (⟨[], [('x')], 0⟩ : FRow)).length : ℤ) - 10 ≤ 100)
    ∧ format_context [(⟨[], [('x')], 0⟩ : FRow)] 0 = ([] : Str) :=
  ⟨by decide, format_small_budget_empty ⟨[], [('x')], 0⟩ [] 0 (by decide)⟩

lemma fcLoop_budget (max_chars : ℕ) :
    ∀ rs (i used : ℕ), fcLoop max_chars rs i used = [] ∨
      used + ((fcLoop max_chars rs i used).map List.length).sum + 8 ≤ max_chars := by
  intro rs
  induction rs with
  | nil => intro i used; exact Or.inl rfl
  | cons r rest ih =>
    intro i used
    by_cases hA : ((max_chars : ℤ) - (used : ℤ) - ((mkHeader i r).length : ℤ) - 10) ≤ 100
    · left; simp only [fcLoop]; rw [if_pos hA]
    · right
      have hM : used + (mkHeader i r).length + 110 < max_chars := by omega
      simp only [fcLoop]
      rw [if_neg hA]
      set h := mkHeader i r with hh
      set avail : ℤ := (max_chars : ℤ) - (used : ℤ) - (h.length : ℤ) - 10 with havl
      set c := if (r.content.length : ℤ) > avail then
          r.content.take (avail - 3).toNat ++ (("...")).data
        else r.content with hc
      have hclen : c.length + used + h.length + 10 ≤ max_chars := by
        rw [hc]
        by_cases hbig : (r.content.length : ℤ) > avail
        · rw [if_pos hbig]
          have h3 : ((avail - 3).toNat : ℤ) = avail - 3 := by
            rw [Int.toNat_of_nonneg]; omega
          simp only [List.length_append, List.length_take]
          have : (avail - 3).toNat ≤ (avail).toNat - 3 := by omega
          have hd : ((("...")).data : Str).length = 3 := rfl
          rw [hd]
          have := min_le_left ((avail - 3).toNat) r.content.length
          omega
        · rw [if_neg hbig]
          push_neg at hbig
          omega
      have hentry : (h ++ [nl] ++ c ++ [nl]).length = h.length + c.length + 2 := by
        simp only [List.length_append, List.length_cons, List.length_nil]
        omega
      rcases ih (i + 1) (used + (h ++ [nl] ++ c ++ [nl]).length) with h0 | h0
      · rw [h0]
        simp only [List.map_cons, List.map_nil, List.sum_cons, List.sum_nil]
        omega
      · simp only [List.map_cons, List.sum_cons]
        omega

lemma joinSep_nl_le (parts : List Str) (M : ℕ)
    (h : parts = [] ∨ (parts.map List.length).sum + 8 ≤ M) :
    (joinSep [nl] parts).length ≤ M + parts.length := by
  cases parts with
  | nil => simp [joinSep]
  | cons x xs =>
    rcases h with h | h
    · exact absurd h (by simp)
    · rw [joinSep_length [nl] (x :: xs) (by simp)]
      simp only [List.length_cons, List.length_nil, one_mul] at *
      omega

/-- C7 amended: for a non-empty result list the length of the formatted
string is at most `max_chars` plus the number of emitted entries: each
emitted entry fits the remaining budget (keeping the running character
count at least 8 below `max_chars`), but the final join's one-character
separators between entries are not counted by the budget bookkeeping. -/
theorem context_budget_amended (results : List FRow) (max_chars : ℕ)
    (hne : results ≠ []) :
    (format_context results max_chars).length
      ≤ max_chars + (fcLoop max_chars results 1 0).length := by
  simp only [format_context, if_neg hne]
  apply joinSep_nl_le
  rcases fcLoop_budget max_chars results 1 0 with h0 | h0
  · exact Or.inl h0
  · right; omega

set_option maxRecDepth 1000000 in
/-- C7 counterexample: with 250 results of one-character content and a
budget of 6000, `format_context` returns a string of more than 6121
characters even though every entry header is at most 21 characters long:
the one-character separators the final join inserts between entries are
never counted against the budget, so the overshoot grows with the number
of emitted entries rather than being bounded by one header's truncation
overhead. -/
theorem context_budget_counterexample :
    6000 + 121
      < (format_context (List.replicate 250 (⟨[], [('x')], 0⟩ : FRow)) 6000).length
    ∧ ∀ i ∈ List.range 251, (mkHeader i (⟨[], [('x')], 0⟩ : FRow)).length ≤ 21 := by
  have hne : (List.replicate 250 (⟨[], [('x')], 0⟩ : FRow)) ≠ [] := by
    intro h
    have h2 := congrArg List.length h
    simp at h2
  have hsum : ((fcLoop 6000 (List.replicate 250 (⟨[], [('x')], 0⟩ : FRow)) 1 0).map
      List.length).sum = 5892 := by decide
  have hlen : (fcLoop 6000 (List.replicate 250 (⟨[], [('x')], 0⟩ : FRow)) 1 0).length
      = 250 := by decide
  constructor
  · have hp : fcLoop 6000 (List.replicate 250 (⟨[], [('x')], 0⟩ : FRow)) 1 0 ≠ [] := by
      intro h
      rw [h] at hlen
      simp at hlen
    simp only [format_context, if_neg hne]
    rw [joinSep_length [nl] _ hp, hsum, hlen]
    norm_num
  · decide

/-- Witness for C7's amended theorem at a concrete one-element list. -/
theorem context_budget_amended_witness :
    ([(⟨[], [('x')], 0⟩ : FRow)] ≠ ([] : List FRow))
    ∧ (format_context [(⟨[], [('x')], 0⟩ : FRow)] 200).length
        ≤ 200 + (fcLoop 200 [(⟨[], [('x')], 0⟩ : FRow)] 1 0).length :=
  ⟨by decide, context_budget_amended [⟨[], [('x')], 0⟩] 200 (by decide)⟩

lemma insertChunk_consistent {E : Type} (embed : Str → E) (st : Store E)
    (c : ChunkRec) (h : Consistent st) :
    Consistent (insertChunk embed st c) := by
  obtain ⟨hbound, hnodup, hvec, hfts⟩ := h
  refine ⟨?_, ?_, ?_, ?_⟩
  · intro r hr
    simp only [insertChunk, List.mem_append, List.mem_singleton] at hr
    rcases hr with hr | hr
    · exact Nat.lt_succ_of_lt (hbound r hr)
    · subst hr; exact Nat.lt_succ_self _
  · simp only [metaIds, insertChunk, List.map_append, List.map_cons, List.map_nil]
    rw [List.nodup_append]
    refine ⟨hnodup, List.nodup_singleton _, ?_⟩
    intro a ha hb
    simp only [List.mem_singleton] at hb
    subst hb
    obtain ⟨r, hr, hid⟩ := List.mem_map.mp ha
    exact absurd (hid ▸ hbound r hr) (lt_irrefl _)
  · simp only [metaIds, insertChunk, List.map_append, List.map_cons, List.map_nil]
    rw [show (st.vec.map Prod.fst) = metaIds st from hvec]
    rfl
  · simp only [metaIds, insertChunk, List.map_append, List.map_cons, List.map_nil]
    rw [show (st.fts.map Prod.fst) = metaIds st from hfts]
    rfl

lemma store_chunks_consistent {E : Type} (embed : Str → E) :
    ∀ (chunks : List ChunkRec) (st : Store E), Consistent st →
      Consistent (store_chunks embed st chunks)
  | [], _, h => h
  | c :: cs, st, h =>
    store_chunks_consistent embed cs (insertChunk embed st c)
      (insertChunk_consistent embed st c h)

lemma mem_map_filter_not {A B : Type} [DecidableEq B] (f : A → B)
    (ids : List B) (l : List A) (b : B) (hb : b ∈ ids) :
    ¬ b ∈ (l.filter (fun a => ¬ f a ∈ ids)).map f := by
  intro hmem
  obtain ⟨a, ha, rfl⟩ := List.mem_map.mp hmem
  exact (of_decide_eq_true (List.mem_filter.mp ha).2) hb

lemma clear_source_eq {E : Type} (st : Store E) (sid : Str)
    (hne : (st.meta.filter (fun r => r.source_id = sid)).map MetaRow.id ≠ []) :
    clear_source st sid = { st with
      vec := st.vec.filter (fun p =>
        ¬ p.1 ∈ (st.meta.filter (fun r => r.source_id = sid)).map MetaRow.id)
      meta := st.meta.filter (fun r =>
        ¬ r.id ∈ (st.meta.filter (fun r => r.source_id = sid)).map MetaRow.id)
      fts := st.fts.filter (fun p =>
        ¬ p.1 ∈ (st.meta.filter (fun r => r.source_id = sid)).map MetaRow.id) } := by
  simp only [clear_source]
  rw [if_neg hne]

/-- C1: from a consistent store, after `store_chunks` every chunk id in the
metadata table has exactly one vector-index entry and exactly one FTS entry
keyed by the same id; and after `clear_source`, none of the three
representations retains any entry for the ids that belonged to that source.
-/
theorem dual_index_consistency {E : Type} (embed : Str → E) (st : Store E)
    (chunks : List ChunkRec) (sid : Str) (h : Consistent st) :
    (∀ i ∈ metaIds (store_chunks embed st chunks),
      ((store_chunks embed st chunks).vec.map Prod.fst).count i = 1
      ∧ ((store_chunks embed st chunks).fts.map Prod.fst).count i = 1)
    ∧ (∀ r ∈ st.meta, r.source_id = sid →
      ¬ r.id ∈ metaIds (clear_source st sid)
      ∧ ¬ r.id ∈ (clear_source st sid).vec.map Prod.fst
      ∧ ¬ r.id ∈ (clear_source st sid).fts.map Prod.fst) := by
  constructor
  · intro i hi
    obtain ⟨hbound, hnodup, hvec, hfts⟩ := store_chunks_consistent embed chunks st h
    rw [hvec, hfts]
    exact ⟨List.count_eq_one_of_mem hnodup hi, List.count_eq_one_of_mem hnodup hi⟩
  · intro r hr hsid
    have hid : r.id ∈ (st.meta.filter
        (fun x => x.source_id = sid)).map MetaRow.id :=
      List.mem_map_of_mem MetaRow.id (List.mem_filter.mpr ⟨hr, by simp [hsid]⟩)
    have hne : (st.meta.filter (fun x => x.source_id = sid)).map MetaRow.id ≠ [] := by
      intro h0
      rw [h0] at hid
      exact absurd hid (List.not_mem_nil _)
    rw [clear_source_eq st sid hne]
    exact ⟨mem_map_filter_not MetaRow.id _ st.meta r.id hid,
      mem_map_filter_not Prod.fst _ st.vec r.id hid,
      mem_map_filter_not Prod.fst _ st.fts r.id hid⟩

/-- Witness for C1 at a concrete consistent one-row store, one new chunk and
the stored source id. -/
theorem dual_index_consistency_witness :
    Consistent (⟨1, [⟨0, notionTag, (("s")).data, (("old")).data⟩],
        [(0, 7)], [(0, ⟨(("old")).data, notionTag, (("s")).data⟩)]⟩ : Store ℕ)
    ∧ ((∀ i ∈ metaIds (store_chunks List.length
          (⟨1, [⟨0, notionTag, (("s")).data, (("old")).data⟩], [(0, 7)],
            [(0, ⟨(("old")).data, notionTag, (("s")).data⟩)]⟩ : Store ℕ)
          [⟨(("new")).data, notionTag, (("s")).data⟩]),
        ((store_chunks List.length
          (⟨1, [⟨0, notionTag, (("s")).data, (("old")).data⟩], [(0, 7)],
            [(0, ⟨(("old")).data, notionTag, (("s")).data⟩)]⟩ : Store ℕ)
          [⟨(("new")).data, notionTag, (("s")).data⟩]).vec.map Prod.fst).count i = 1
        ∧ ((store_chunks List.length
          (⟨1, [⟨0, notionTag, (("s")).data, (("old")).data⟩], [(0, 7)],
            [(0, ⟨(("old")).data, notionTag, (("s")).data⟩)]⟩ : Store ℕ)
          [⟨(("new")).data, notionTag, (("s")).data⟩]).fts.map Prod.fst).count i = 1)
      ∧ (∀ r ∈ (⟨1, [⟨0, notionTag, (("s")).data, (("old")).data⟩], [(0, 7)],
            [(0, ⟨(("old")).data, notionTag, (("s")).data⟩)]⟩ : Store ℕ).meta,
          r.source_id = (("s")).data →
          ¬ r.id ∈ metaIds (clear_source
            (⟨1, [⟨0, notionTag, (("s")).data, (("old")).data⟩], [(0, 7)],
              [(0, ⟨(("old")).data, notionTag, (("s")).data⟩)]⟩ : Store ℕ) (("s")).data)
          ∧ ¬ r.id ∈ (clear_source
            (⟨1, [⟨0, notionTag, (("s")).data, (("old")).data⟩], [(0, 7)],
              [(0, ⟨(("old")).data, notionTag, (("s")).data⟩)]⟩ : Store ℕ)
              (("s")).data).vec.map Prod.fst
          ∧ ¬ r.id ∈ (clear_source
            (⟨1, [⟨0, notionTag, (("s")).data, (("old")).data⟩], [(0, 7)],
              [(0, ⟨(("old")).data, notionTag, (("s")).data⟩)]⟩ : Store ℕ)
              (("s")).data).fts.map Prod.fst)) :=
  ⟨by decide, dual_index_consistency List.length _ _ (("s")).data (by decide)⟩

lemma sourceContents_clear {E : Type} (st : Store E) (sid : Str) :
    sourceContents (clear_source st sid) sid = [] := by
  by_cases hne : (st.meta.filter (fun r => r.source_id = sid)).map MetaRow.id = []
  · have hf : st.meta.filter (fun r => r.source_id = sid) = [] :=
      List.map_eq_nil_iff.mp hne
    simp only [clear_source]
    rw [if_pos hne]
    simp [sourceContents, hf]
  · rw [clear_source_eq st sid hne]
    simp only [sourceContents]
    rw [List.map_eq_nil_iff, List.filter_eq_nil_iff]
    intro a ha
    have h2 := of_decide_eq_true (List.mem_filter.mp ha).2
    simp only [decide_eq_true_eq]
    intro hsid
    exact h2 (List.mem_map_of_mem MetaRow.id
      (List.mem_filter.mpr ⟨(List.mem_filter.mp ha).1, by simp [hsid]⟩))

lemma sourceContents_insert {E : Type} (embed : Str → E) (st : Store E)
    (c : ChunkRec) (sid : Str) :
    sourceContents (insertChunk embed st c) sid
      = sourceContents st sid ++ (if c.source_id = sid then [c.content] else []) := by
  by_cases h : c.source_id = sid <;>
    simp [sourceContents, insertChunk, List.filter_append, h]

lemma sourceContents_store {E : Type} (embed : Str → E) (sid : Str) :
    ∀ (cs : List ChunkRec) (st : Store E),
      sourceContents (store_chunks embed st cs) sid
        = sourceContents st sid
          ++ (cs.filter (fun c => c.source_id = sid)).map ChunkRec.content
  | [], st => by simp [store_chunks, sourceContents]
  | c :: cs, st => by
    have ih := sourceContents_store embed sid cs (insertChunk embed st c)
    simp only [store_chunks, List.foldl_cons] at ih ⊢
    rw [ih, sourceContents_insert]
    by_cases h : c.source_id = sid <;> simp [h, List.filter_cons]

lemma chunkLoop_source_id (S : ℕ) (sid : Str) :
    ∀ (ps buf : List Str) (size : ℕ) (c : ChunkRec),
      c ∈ chunkLoop S sid ps buf size → c.source_id = sid := by
  intro ps
  induction ps with
  | nil =>
    intro buf size c hc
    by_cases hb : buf = []
    · simp [chunkLoop, hb] at hc
    · simp only [chunkLoop, if_neg hb, List.mem_singleton] at hc
      rw [hc]
  | cons p ps ih =>
    intro buf size c hc
    by_cases hcond : size + p.length > S ∧ buf ≠ []
    · simp only [chunkLoop, if_pos hcond, List.mem_cons] at hc
      rcases hc with rfl | hc
      · rfl
      · exact ih [p] p.length c hc
    · simp only [chunkLoop, if_neg hcond] at hc
      exact ih (buf ++ [p]) (size + p.length) c hc

lemma chunk_document_filter_self (content sid : Str) (S : ℕ) :
    (chunk_document content sid S).filter (fun c => c.source_id = sid)
      = chunk_document content sid S :=
  List.filter_eq_self.mpr (fun c hc => by
    simp [chunkLoop_source_id S sid (paragraphs content) [] 0 c hc])

/-- C5: with a fixed fetched document and embedding function, syncing a
source twice returns the same chunk count both times, and after the second
sync the store holds for that source exactly the chunk contents of one
sync — the same contents as after the first sync, with no duplicates
carried over. -/
theorem idempotent_resync {E : Type} (embed : Str → E) (content : Str)
    (st : Store E) (sid : Str) :
    (sync_source embed content st sid).1
      = (sync_source embed content (sync_source embed content st sid).2 sid).1
    ∧ sourceContents (sync_source embed content
        (sync_source embed content st sid).2 sid).2 sid
      = (chunk_document content sid).map ChunkRec.content
    ∧ sourceContents (sync_source embed content
        (sync_source embed content st sid).2 sid).2 sid
      = sourceContents (sync_source embed content st sid).2 sid := by
  have key : ∀ s : Store E,
      sourceContents (sync_source embed content s sid).2 sid
        = (chunk_document content sid).map ChunkRec.content := by
    intro s
    simp only [sync_source]
    rw [sourceContents_store, sourceContents_clear, chunk_document_filter_self]
    simp
  exact ⟨rfl, key _, (key _).trans (key st).symm⟩

lemma mem_insertDescBy {A : Type} (key : A → ℚ) (x : A) :
    ∀ (l : List A) (y : A), y ∈ insertDescBy key x l ↔ y = x ∨ y ∈ l
  | [], y => by simp [insertDescBy]
  | z :: zs, y => by
    simp only [insertDescBy]
    by_cases h : key z ≤ key x
    · rw [if_pos h]
      simp [List.mem_cons]
    · rw [if_neg h]
      simp only [List.mem_cons, mem_insertDescBy key x zs y]
      tauto

lemma pairwise_insertDescBy {A : Type} (key : A → ℚ) (x : A) :
    ∀ l : List A, l.Pairwise (fun a b => key b ≤ key a) →
      (insertDescBy key x l).Pairwise (fun a b => key b ≤ key a)
  | [], _ => by simp [insertDescBy]
  | z :: zs, hp => by
    simp only [insertDescBy]
    by_cases h : key z ≤ key x
    · rw [if_pos h]
      refine List.Pairwise.cons ?_ hp
      intro b hb
      rcases List.mem_cons.mp hb with rfl | hb
      · exact h
      · exact le_trans (List.rel_of_pairwise_cons hp hb) h
    · rw [if_neg h]
      refine List.Pairwise.cons ?_ (pairwise_insertDescBy key x zs hp.of_cons)
      intro b hb
      rcases (mem_insertDescBy key x zs b).mp hb with rfl | hb
      · exact le_of_lt (lt_of_not_le h)
      · exact List.rel_of_pairwise_cons hp hb

lemma mem_sortDescBy {A : Type} (key : A → ℚ) :
    ∀ (l : List A) (y : A), y ∈ sortDescBy key l ↔ y ∈ l
  | [], y => by simp [sortDescBy]
  | x :: xs, y => by
    simp only [sortDescBy, mem_insertDescBy, mem_sortDescBy key xs, List.mem_cons]

lemma sortDescBy_pairwise {A : Type} (key : A → ℚ) :
    ∀ l : List A, (sortDescBy key l).Pairwise (fun a b => key b ≤ key a)
  | [] => by simp [sortDescBy]
  | x :: xs => pairwise_insertDescBy key x _ (sortDescBy_pairwise key xs)

lemma dictSet_entries_of (P : ℕ × HRow → Prop) (k : ℕ) (v : HRow)
    (hv : P (k, v)) :
    ∀ m : List (ℕ × HRow), (∀ kv ∈ m, P kv) → ∀ kv ∈ dictSet k v m, P kv
  | [], _, kv, hkv => by
    simp only [dictSet, List.mem_singleton] at hkv
    exact hkv ▸ hv
  | kv0 :: rest, hm, kv, hkv => by
    simp only [dictSet] at hkv
    by_cases h : kv0.1 = k
    · rw [if_pos h] at hkv
      rcases List.mem_cons.mp hkv with rfl | hkv
      · exact hv
      · exact hm kv (List.mem_cons_of_mem kv0 hkv)
    · rw [if_neg h] at hkv
      rcases List.mem_cons.mp hkv with heq | hkv
      · exact heq ▸ hm kv0 (List.mem_cons_self kv0 rest)
      · exact dictSet_entries_of P k v hv rest
          (fun x hx => hm x (List.mem_cons_of_mem kv0 hx)) kv hkv

lemma semStep_entries_of (P : ℕ × HRow → Prop) (m : List (ℕ × HRow))
    (p : ℕ × ℚ) (hnew : P (p.1, ⟨p.1, 0, p.2, 0⟩))
    (hupd : ∀ kv, P kv → kv.1 = p.1 →
      P (kv.1, { kv.2 with semantic_score := p.2 }))
    (hm : ∀ kv ∈ m, P kv) : ∀ kv ∈ semStep m p, P kv := by
  intro kv hkv
  simp only [semStep] at hkv
  by_cases hin : p.1 ∈ m.map Prod.fst
  · rw [if_pos hin] at hkv
    obtain ⟨kv0, hkv0, heq⟩ := List.mem_map.mp hkv
    by_cases hk : kv0.1 = p.1
    · rw [if_pos hk] at heq
      exact heq ▸ hupd kv0 (hm kv0 hkv0) hk
    · rw [if_neg hk] at heq
      exact heq ▸ hm kv0 hkv0
  · rw [if_neg hin] at hkv
    rcases List.mem_append.mp hkv with h | h
    · exact hm kv h
    · simp only [List.mem_singleton] at h
      exact h ▸ hnew

lemma foldl_dictSet_entries (P : ℕ × HRow → Prop) :
    ∀ (bn : List (ℕ × ℚ)) (m : List (ℕ × HRow)),
      (∀ p ∈ bn, P (p.1, ⟨p.1, p.2, 0, 0⟩)) → (∀ kv ∈ m, P kv) →
      ∀ kv ∈ bn.foldl (fun m p => dictSet p.1 ⟨p.1, p.2, 0, 0⟩ m) m, P kv
  | [], _, _, hm => hm
  | p :: bn, m, hbn, hm =>
    foldl_dictSet_entries P bn (dictSet p.1 ⟨p.1, p.2, 0, 0⟩ m)
      (fun q hq => hbn q (List.mem_cons_of_mem p hq))
      (dictSet_entries_of P p.1 ⟨p.1, p.2, 0, 0⟩
        (hbn p (List.mem_cons_self p bn)) m hm)

lemma foldl_semStep_entries (P : ℕ × HRow → Prop) :
    ∀ (sn : List (ℕ × ℚ)) (m : List (ℕ × HRow)),
      (∀ p ∈ sn, P (p.1, ⟨p.1, 0, p.2, 0⟩)) →
      (∀ p ∈ sn, ∀ kv, P kv → kv.1 = p.1 →
        P (kv.1, { kv.2 with semantic_score := p.2 })) →
      (∀ kv ∈ m, P kv) →
      ∀ kv ∈ sn.foldl semStep m, P kv
  | [], _, _, _, hm => hm
  | p :: sn, m, hnew, hupd, hm =>
    foldl_semStep_entries P sn (semStep m p)
      (fun q hq => hnew q (List.mem_cons_of_mem p hq))
      (fun q hq => hupd q (List.mem_cons_of_mem p hq))
      (semStep_entries_of P m p (hnew p (List.mem_cons_self p sn))
        (hupd p (List.mem_cons_self p sn)) hm)

lemma bm25Normalized_fst_mem (rs : List BRow) :
    ∀ p ∈ bm25Normalized rs, p.1 ∈ rs.map BRow.id := by
  cases rs with
  | nil => simp [bm25Normalized]
  | cons r0 rest =>
    intro p hp
    simp only [bm25Normalized, List.mem_map] at hp
    obtain ⟨r, hr, rfl⟩ := hp
    exact List.mem_map_of_mem BRow.id hr

lemma semNormalized_fst_mem (rs : List SRow) :
    ∀ p ∈ semNormalized rs, p.1 ∈ rs.map SRow.id := by
  cases rs with
  | nil => simp [semNormalized]
  | cons r0 rest =>
    intro p hp
    simp only [semNormalized, List.mem_map] at hp
    obtain ⟨r, hr, rfl⟩ := hp
    exact List.mem_map_of_mem SRow.id hr

/-- The per-entry invariant of the merge dict of `hybrid_search`: the row
carries its own key as id, every key came from one of the two result sets,
and a key absent from one side still has that side's score equal to 0. -/
def MergeEntryOk (bids sids : List ℕ) (kv : ℕ × HRow) : Prop :=
  kv.2.id = kv.1 ∧ (kv.1 ∈ bids ∨ kv.1 ∈ sids) ∧
    (¬ kv.1 ∈ sids → kv.2.semantic_score = 0) ∧
    (¬ kv.1 ∈ bids → kv.2.bm25_score = 0)

/-- C3: `hybrid_search` over-fetches `2*topK` rows from each search, merges
them by chunk id with 0 for a missing side's normalized score, gives every
merged row `final_score = bm25Weight*bm25 + semanticWeight*semantic`, sorts
descending by final score, and returns at most `topK` rows. -/
theorem hybrid_merge_properties (bfn : ℕ → List BRow) (sfn : ℕ → List SRow)
    (top_k : ℕ) (bm25_weight semantic_weight : ℚ) :
    (hybrid_search bfn sfn top_k bm25_weight semantic_weight).length ≤ top_k
    ∧ (hybrid_search bfn sfn top_k bm25_weight semantic_weight).Pairwise
        (fun a b => b.final_score ≤ a.final_score)
    ∧ ∀ r ∈ hybrid_search bfn sfn top_k bm25_weight semantic_weight,
        r.final_score
          = bm25_weight * r.bm25_score + semantic_weight * r.semantic_score
        ∧ (r.id ∈ (bfn (top_k * 2)).map BRow.id
            ∨ r.id ∈ (sfn (top_k * 2)).map SRow.id)
        ∧ (¬ r.id ∈ (sfn (top_k * 2)).map SRow.id → r.semantic_score = 0)
        ∧ (¬ r.id ∈ (bfn (top_k * 2)).map BRow.id → r.bm25_score = 0) := by
  simp only [hybrid_search]
  refine ⟨List.length_take_le _ _, ?_, ?_⟩
  · exact (sortDescBy_pairwise HRow.final_score _).sublist (List.take_sublist _ _)
  · intro r hr
    have hr2 := (mem_sortDescBy HRow.final_score _ r).mp
      (List.mem_of_mem_take hr)
    obtain ⟨kv, hkv, rfl⟩ := List.mem_map.mp hr2
    have hOk : MergeEntryOk ((bfn (top_k * 2)).map BRow.id)
        ((sfn (top_k * 2)).map SRow.id) kv := by
      refine foldl_semStep_entries _ _ _ ?_ ?_ ?_ kv hkv
      · intro p hp
        exact ⟨rfl, Or.inr (semNormalized_fst_mem _ p hp),
          fun hn => absurd (semNormalized_fst_mem _ p hp) hn, fun _ => rfl⟩
      · intro p hp kv0 h0 hk
        exact ⟨h0.1, h0.2.1,
          fun hn => absurd (hk ▸ semNormalized_fst_mem _ p hp) hn,
          fun hn => h0.2.2.2 hn⟩
      · refine foldl_dictSet_entries _ _ _ ?_ (by simp)
        intro p hp
        exact ⟨rfl, Or.inl (bm25Normalized_fst_mem _ p hp), fun _ => rfl,
          fun hn => absurd (bm25Normalized_fst_mem _ p hp) hn⟩
    obtain ⟨hid, hmem, hsem, hbm⟩ := hOk
    exact ⟨rfl, hid ▸ hmem, fun hn => hsem (hid ▸ hn), fun hn => hbm (hid ▸ hn)⟩

/-- Witness for C3 at a concrete pair of one-row result sets. -/
theorem hybrid_merge_properties_witness :
    (hybrid_search (fun _ => [(⟨1, 2⟩ : BRow)]) (fun _ => [(⟨1, 1⟩ : SRow)])
        3 (3/10) (7/10)).length ≤ 3
    ∧ (hybrid_search (fun _ => [(⟨1, 2⟩ : BRow)]) (fun _ => [(⟨1, 1⟩ : SRow)])
        3 (3/10) (7/10)).Pairwise (fun a b => b.final_score ≤ a.final_score)
    ∧ ∀ r ∈ hybrid_search (fun _ => [(⟨1, 2⟩ : BRow)])
        (fun _ => [(⟨1, 1⟩ : SRow)]) 3 (3/10) (7/10),
        r.final_score = (3/10) * r.bm25_score + (7/10) * r.semantic_score
        ∧ (r.id ∈ ((fun _ : ℕ => [(⟨1, 2⟩ : BRow)]) (3 * 2)).map BRow.id
            ∨ r.id ∈ ((fun _ : ℕ => [(⟨1, 1⟩ : SRow)]) (3 * 2)).map SRow.id)
        ∧ (¬ r.id ∈ ((fun _ : ℕ => [(⟨1, 1⟩ : SRow)]) (3 * 2)).map SRow.id →
            r.semantic_score = 0)
        ∧ (¬ r.id ∈ ((fun _ : ℕ => [(⟨1, 2⟩ : BRow)]) (3 * 2)).map BRow.id →
            r.bm25_score = 0) :=
  hybrid_merge_properties (fun _ => [(⟨1, 2⟩ : BRow)])
    (fun _ => [(⟨1, 1⟩ : SRow)]) 3 (3/10) (7/10)

lemma foldl_min_const (c : ℚ) (f : BRow → ℚ) :
    ∀ rest : List BRow, (∀ r ∈ rest, f r = c) →
      rest.foldl (fun a r => min a (f r)) c = c
  | [], _ => rfl
  | r :: rest, h => by
    have h1 : f r = c := h r (List.mem_cons_self r rest)
    simp only [List.foldl_cons, h1, min_self]
    exact foldl_min_const c f rest (fun x hx => h x (List.mem_cons_of_mem r hx))

lemma bm25Normalized_all_eq (rs : List BRow)
    (h : ∀ r ∈ rs, ∀ q ∈ rs, r.bm25_score = q.bm25_score) :
    ∀ p ∈ bm25Normalized rs, p.2 = 0 := by
  cases rs with
  | nil => simp [bm25Normalized]
  | cons r0 rest =>
    intro p hp
    simp only [bm25Normalized, List.mem_map] at hp
    obtain ⟨r, hr, rfl⟩ := hp
    have hmin : rest.foldl (fun a q => min a q.bm25_score) r0.bm25_score
        = r0.bm25_score :=
      foldl_min_const r0.bm25_score BRow.bm25_score rest (fun q hq =>
        h q (List.mem_cons_of_mem r0 hq) r0 (List.mem_cons_self r0 rest))
    have hreq : r.bm25_score = r0.bm25_score :=
      h r hr r0 (List.mem_cons_self r0 rest)
    simp only [hmin, hreq, sub_self, zero_div]

/-- C8: when every BM25 score among the candidates is equal, the min-max
normalization (whose divisor is 1 in that case rather than `max - min`)
gives every merged result a normalized BM25 score of exactly 0. -/
theorem bm25_normalization_stability (bfn : ℕ → List BRow)
    (sfn : ℕ → List SRow) (top_k : ℕ) (bm25_weight semantic_weight : ℚ)
    (h : ∀ r ∈ bfn (top_k * 2), ∀ q ∈ bfn (top_k * 2),
      r.bm25_score = q.bm25_score) :
    ∀ x ∈ hybrid_search bfn sfn top_k bm25_weight semantic_weight,
      x.bm25_score = 0 := by
  simp only [hybrid_search]
  intro x hx
  have hx2 := (mem_sortDescBy HRow.final_score _ x).mp
    (List.mem_of_mem_take hx)
  obtain ⟨kv, hkv, rfl⟩ := List.mem_map.mp hx2
  refine foldl_semStep_entries (fun kv : ℕ × HRow => kv.2.bm25_score = 0)
    _ _ ?_ ?_ ?_ kv hkv
  · intro p hp
    rfl
  · intro p hp kv0 h0 hk
    exact h0
  · refine foldl_dictSet_entries (fun kv : ℕ × HRow => kv.2.bm25_score = 0)
      _ _ ?_ (by simp)
    intro p hp
    exact bm25Normalized_all_eq _ h p hp

/-- Witness for C8 at two equal-score BM25 rows and one semantic row. -/
theorem bm25_normalization_stability_witness :
    (∀ r ∈ [(⟨1, 5⟩ : BRow), ⟨2, 5⟩], ∀ q ∈ [(⟨1, 5⟩ : BRow), ⟨2, 5⟩],
      r.bm25_score = q.bm25_score)
    ∧ ∀ x ∈ hybrid_search (fun _ => [(⟨1, 5⟩ : BRow), ⟨2, 5⟩])
        (fun _ => [(⟨3, 1⟩ : SRow)]) 2 (3/10) (7/10),
      x.bm25_score = 0 :=
  ⟨by simp, bm25_normalization_stability (fun _ => [(⟨1, 5⟩ : BRow), ⟨2, 5⟩])
    (fun _ => [(⟨3, 1⟩ : SRow)]) 2 (3/10) (7/10) (by simp)⟩

end RagKB
